import Mathlib

set_option linter.unusedSectionVars false
set_option linter.unusedVariables false

/-!
A shallow embedding of the Go package `lru` (file `lru.go`): a bounded LRU
cache with optional per-entry TTL expiration and per-entry eviction
callbacks, plus a probabilistic background expiration pass.

Modelling conventions.

* The doubly linked list `dl` (front = most recently used) together with the
  index map `cache` is modelled as a single list of entries, front first,
  whose keys the implementation keeps pairwise distinct.  Looking a key up in
  the map corresponds to `findEntry`; `dl.Remove` plus `delete(c.cache, k)`
  corresponds to `removeKey`.
* `c.cache == nil` (the state after `Clear`, or an uninitialized cache) is
  the Boolean field `cacheNil`.
* Go `int64` nanosecond timestamps and durations are `Int`; the current time
  `time.Now().UnixNano()` is passed explicitly as a `now : Int` argument.
* An eviction callback `*func(Key, interface{})` is `Option C` for an opaque
  type `C` of callback identifiers.  Invoking a callback appends the triple
  `(cb, key, value)` to an event log and then applies a caller-supplied
  interpretation `interp : C → K → V → Cache → Cache` to the state, so that
  reentrant callbacks (the double-check branch of `Get`) are expressible.
  The pure interpretation `noReenter` models callbacks without cache side
  effects.
* Each public operation acquires the per-cache write lock at entry and
  holds it for its whole body.  `sync.RWMutex` is not reentrant, and the
  source's `add` calls `c.RemoveOldest()` from its capacity-overflow branch
  while still holding that lock; `RemoveOldest` then blocks forever on its
  own `c.lock.Lock()`.  `add` (and its three wrappers) therefore return an
  `Option`: `some` is a call that completes with the new state, `none` is
  the self-deadlock of the overflow branch, where the insert never returns.
  Every other operation acquires the free lock exactly once, never nests an
  acquisition, and always completes, so it stays a total function.  The
  goroutine watchdog only calls `DeleteExpired` and is not modelled
  separately.
* In `DeleteExpired`, the random sample size `rand.Intn(c.Len()) + 1` is the
  parameter `count` (constrained to `1 ≤ count ≤ Len` in theorems), and the
  unspecified map iteration order is the parameter `ks : List K`.  The
  second component of the result instruments the number of loop iterations
  (entries examined); the cache state is the first component.
-/

namespace LruCache

/-- Go struct `entry`: key, value, absolute expiration (0 = never expires),
and optional eviction callback. -/
structure entry (K V C : Type) where
  key : K
  value : V
  Expiration : Int
  onEvicted : Option C
  deriving Repr, DecidableEq

/-- Go struct `Cache`: capacity `MaxEntries`, the nil-ness of the index map,
the recency-ordered entries (front = most recently used), and the log of
fired eviction callbacks (instrumentation of callback invocation). -/
structure Cache (K V C : Type) where
  maxEntries : Int
  cacheNil : Bool
  entries : List (entry K V C)
  log : List (C × K × V)
  deriving Repr, DecidableEq

variable {K V C : Type} [DecidableEq K]

/-- Go `entry.Expired()`: false when `Expiration == 0`, otherwise
`now > Expiration`. -/
def entry.Expired (e : entry K V C) (now : Int) : Bool :=
  if e.Expiration = 0 then false else decide (e.Expiration < now)

/-- Map lookup `c.cache[key]`: the unique entry with the given key (keys are
pairwise distinct in reachable states). -/
def findEntry (k : K) : List (entry K V C) → Option (entry K V C)
  | [] => none
  | e :: es => if e.key = k then some e else findEntry k es

/-- `c.dl.Remove(e)` together with `delete(c.cache, k)`: drop the (first)
entry with the given key. -/
def removeKey (k : K) : List (entry K V C) → List (entry K V C)
  | [] => []
  | e :: es => if e.key = k then es else e :: removeKey k es

/-- The pure callback interpretation: the callback has no side effect on the
cache (the log entry still records its invocation). -/
def noReenter : C → K → V → Cache K V C → Cache K V C :=
  fun _ _ _ c => c

/-- Go `Cache.removeElement`: detach the entry from the list, delete its key
from the map, then invoke its eviction callback (if registered) with the
stored key and value. -/
def removeElement (interp : C → K → V → Cache K V C → Cache K V C)
    (c : Cache K V C) (e : entry K V C) : Cache K V C :=
  match e.onEvicted with
  | some cb =>
      interp cb e.key e.value
        { c with
          entries := removeKey e.key c.entries,
          log := c.log ++ [(cb, e.key, e.value)] }
  | none => { c with entries := removeKey e.key c.entries }

/-- Go `Cache.RemoveOldest`: nothing on a nil cache; otherwise remove the
back (least recently used) element, if any. -/
def RemoveOldest (interp : C → K → V → Cache K V C → Cache K V C)
    (c : Cache K V C) : Cache K V C :=
  if c.cacheNil then c
  else
    match c.entries.getLast? with
    | some e => removeElement interp c e
    | none => c

/-- Expiration computed by `Cache.add`: `time.Now().Add(d).UnixNano()` when
`d > 0`, otherwise the zero value. -/
def expOf (d now : Int) : Int :=
  if 0 < d then now + d else 0

/-- Go `Cache.add`: the caller acquires the write lock at entry and holds
it for the whole body.  Re-create the containers when the map is nil; on an
existing key move it to the front and overwrite value and expiration
(leaving the callback untouched); on a fresh key push a new entry at the
front and, when `MaxEntries != 0` and the length exceeds it, call
`RemoveOldest` — which re-acquires the non-reentrant write lock `add`
still holds and blocks forever.  The result is `some` of the new state
when the call completes and `none` for the overflow self-deadlock, where
the insert never returns (nothing is evicted and no callback fires). -/
def add (interp : C → K → V → Cache K V C → Cache K V C)
    (k : K) (v : V) (d : Int) (cb : Option C) (now : Int)
    (c : Cache K V C) : Option (Cache K V C) :=
  let c0 := if c.cacheNil then { c with cacheNil := false, entries := [] } else c
  match findEntry k c0.entries with
  | some item =>
      some { c0 with
        entries := { item with value := v, Expiration := expOf d now }
          :: removeKey k c0.entries }
  | none =>
      let c1 := { c0 with entries := ⟨k, v, expOf d now, cb⟩ :: c0.entries }
      if c1.maxEntries ≠ 0 ∧ (c1.entries.length : Int) > c1.maxEntries then
        -- the source calls `c.RemoveOldest()` at this point; its
        -- `c.lock.Lock()` re-acquires the write lock held since the entry
        -- of `add`, so the call blocks forever and the insert never
        -- completes
        none
      else some c1

/-- Go `Cache.Add`: insert with no expiration (`d = -1`) and no callback;
`none` when the insert self-deadlocks in the overflow branch. -/
def Add (interp : C → K → V → Cache K V C → Cache K V C)
    (k : K) (v : V) (now : Int) (c : Cache K V C) : Option (Cache K V C) :=
  add interp k v (-1) none now c

/-- Go `Cache.AddEx`: insert with a TTL and no callback; `none` when the
insert self-deadlocks in the overflow branch. -/
def AddEx (interp : C → K → V → Cache K V C → Cache K V C)
    (k : K) (v : V) (d : Int) (now : Int) (c : Cache K V C) :
    Option (Cache K V C) :=
  add interp k v d none now c

/-- Go `Cache.AddExWithOnEvicted`: insert with a TTL and a callback; `none`
when the insert self-deadlocks in the overflow branch. -/
def AddExWithOnEvicted (interp : C → K → V → Cache K V C → Cache K V C)
    (k : K) (v : V) (d : Int) (cb : C) (now : Int)
    (c : Cache K V C) : Option (Cache K V C) :=
  add interp k v d (some cb) now c

/-- Go `Cache.Get`: zero value on a nil cache or an absent key; on an expired
hit remove the element and look the key up again (the reentrancy double
check), returning the reinserted value when the callback put the key back
and the zero value otherwise; on a live hit move the element to the front
and return its value.  The Boolean `ok` of the Go return is the `Option`. -/
def Get (interp : C → K → V → Cache K V C → Cache K V C)
    (k : K) (now : Int) (c : Cache K V C) : Option V × Cache K V C :=
  if c.cacheNil then (none, c)
  else
    match findEntry k c.entries with
    | none => (none, c)
    | some e =>
        if e.Expired now then
          let c2 := removeElement interp c e
          match findEntry k c2.entries with
          | some e2 => (some e2.value, c2)
          | none => (none, c2)
        else (some e.value, { c with entries := e :: removeKey k c.entries })

/-- Go `Cache.Remove`: nothing on a nil cache or an absent key; otherwise
remove the element via `removeElement`. -/
def Remove (interp : C → K → V → Cache K V C → Cache K V C)
    (k : K) (c : Cache K V C) : Cache K V C :=
  if c.cacheNil then c
  else
    match findEntry k c.entries with
    | some e => removeElement interp c e
    | none => c

/-- Go `Cache.Len`: 0 on a nil cache, otherwise the list length. -/
def Len (c : Cache K V C) : Nat :=
  if c.cacheNil then 0 else c.entries.length

/-- Go `Cache.Clear`: set both containers to nil; no callback fires and the
log is untouched. -/
def Clear (c : Cache K V C) : Cache K V C :=
  { c with cacheNil := true, entries := [] }

/-- The loop body of Go `Cache.DeleteExpired`: examine up to `count` entries
in map iteration order `ks`, removing each whose expiration is positive and
has passed (`kv.Expiration > 0 && now > kv.Expiration`).  The second
component instruments the number of entries examined. -/
def deleteExpiredLoop (interp : C → K → V → Cache K V C → Cache K V C)
    (now : Int) : Nat → List K → Cache K V C → Cache K V C × Nat
  | 0, _, c => (c, 0)
  | _ + 1, [], c => (c, 0)
  | count + 1, k :: ks, c =>
      let c2 :=
        match findEntry k c.entries with
        | some kv =>
            if 0 < kv.Expiration ∧ kv.Expiration < now then
              removeElement interp c kv
            else c
        | none => c
      let r := deleteExpiredLoop interp now count ks c2
      (r.1, r.2 + 1)

/-- Go `Cache.DeleteExpired` (the sweep pass): nothing when the cache is
empty; otherwise run the loop with sample size `count`, which stands for
`rand.Intn(c.Len()) + 1`, over the unspecified map iteration order `ks`. -/
def DeleteExpired (interp : C → K → V → Cache K V C → Cache K V C)
    (now : Int) (count : Nat) (ks : List K)
    (c : Cache K V C) : Cache K V C × Nat :=
  if Len c = 0 then (c, 0) else deleteExpiredLoop interp now count ks c

/-- Go `New` (the watchdog goroutine carries no cache state): a live cache
with the given capacity and empty containers. -/
def New (maxEntries : Int) : Cache K V C :=
  ⟨maxEntries, false, [], []⟩

/-- Keys of reachable caches are pairwise distinct: the map `cache` indexes
the list `dl` bijectively. -/
def keysNodup (c : Cache K V C) : Prop :=
  (c.entries.map entry.key).Nodup

/-- A reentrant callback interpretation exhibiting the double-check branch
of `Get`: the callback reinserts the key it was fired for, with value 999,
no TTL and no callback of its own.  The reinserting insert is read through
`Option.getD`; in the scenario the witness exhibits the cache has capacity
0, the insert cannot overflow, and the default branch is never taken. -/
def reinsert : Nat → Nat → Nat → Cache Nat Nat Nat → Cache Nat Nat Nat :=
  fun _ k _ c => (Add noReenter k 999 0 c).getD c

/-- The log events produced by firing the callback of one entry: one event
when a callback is registered, none otherwise. -/
def fireLog (e : entry K V C) : List (C × K × V) :=
  match e.onEvicted with
  | some cb => [(cb, e.key, e.value)]
  | none => []

/-! ### Lemmas about `findEntry` and `removeKey` -/

theorem findEntry_key {k : K} :
    ∀ {l : List (entry K V C)} {e}, findEntry k l = some e → e.key = k := by
  intro l
  induction l with
  | nil => intro e h; simp [findEntry] at h
  | cons a as ih =>
      intro e h
      by_cases ha : a.key = k
      · simp [findEntry, ha] at h
        rw [← h, ha]
      · simp [findEntry, ha] at h
        exact ih h

theorem findEntry_mem {k : K} :
    ∀ {l : List (entry K V C)} {e}, findEntry k l = some e → e ∈ l := by
  intro l
  induction l with
  | nil => intro e h; simp [findEntry] at h
  | cons a as ih =>
      intro e h
      by_cases ha : a.key = k
      · simp [findEntry, ha] at h
        simp [← h]
      · simp [findEntry, ha] at h
        exact List.mem_cons_of_mem a (ih h)

theorem findEntry_eq_none_of_not_mem {k : K} :
    ∀ {l : List (entry K V C)}, k ∉ l.map entry.key → findEntry k l = none := by
  intro l
  induction l with
  | nil => intro _; rfl
  | cons a as ih =>
      intro h
      simp only [List.map_cons, List.mem_cons] at h
      push_neg at h
      have ha : a.key ≠ k := fun hk => h.1 hk.symm
      simp [findEntry, ha]
      exact ih h.2

theorem removeKey_length {k : K} :
    ∀ {l : List (entry K V C)} {e}, findEntry k l = some e →
      (removeKey k l).length + 1 = l.length := by
  intro l
  induction l with
  | nil => intro e h; simp [findEntry] at h
  | cons a as ih =>
      intro e h
      by_cases ha : a.key = k
      · simp [removeKey, ha]
      · simp [findEntry, ha] at h
        simp [removeKey, ha, ih h]

theorem removeKey_sublist (k : K) :
    ∀ l : List (entry K V C), List.Sublist (removeKey k l) l := by
  intro l
  induction l with
  | nil => exact List.Sublist.refl []
  | cons a as ih =>
      by_cases ha : a.key = k
      · simp only [removeKey, if_pos ha]
        exact List.sublist_cons_of_sublist a (List.Sublist.refl as)
      · simpa [removeKey, ha] using List.Sublist.cons₂ a ih

theorem mem_removeKey_of_ne {k : K} {e : entry K V C} (hne : e.key ≠ k) :
    ∀ {l : List (entry K V C)}, e ∈ l → e ∈ removeKey k l := by
  intro l
  induction l with
  | nil => intro h; simp at h
  | cons a as ih =>
      intro h
      by_cases ha : a.key = k
      · rcases List.mem_cons.mp h with rfl | h2
        · exact absurd ha hne
        · simpa [removeKey, ha] using h2
      · rcases List.mem_cons.mp h with rfl | h2
        · simp [removeKey, ha]
        · simp [removeKey, ha]
          exact Or.inr (ih h2)

theorem key_nodup_inj :
    ∀ {l : List (entry K V C)}, (l.map entry.key).Nodup →
      ∀ {e1 e2 : entry K V C}, e1 ∈ l → e2 ∈ l → e1.key = e2.key → e1 = e2 := by
  intro l
  induction l with
  | nil => intro _ e1 e2 h1; simp at h1
  | cons a as ih =>
      intro hnd e1 e2 h1 h2 hk
      simp only [List.map_cons, List.nodup_cons] at hnd
      rcases List.mem_cons.mp h1 with rfl | h1t <;>
        rcases List.mem_cons.mp h2 with rfl | h2t
      · rfl
      · exact absurd (hk ▸ List.mem_map_of_mem entry.key h2t) hnd.1
      · exact absurd (hk ▸ List.mem_map_of_mem entry.key h1t) hnd.1
      · exact ih hnd.2 h1t h2t hk

theorem findEntry_removeKey_self {k : K} :
    ∀ {l : List (entry K V C)}, (l.map entry.key).Nodup →
      findEntry k (removeKey k l) = none := by
  intro l
  induction l with
  | nil => intro _; rfl
  | cons a as ih =>
      intro hnd
      simp only [List.map_cons, List.nodup_cons] at hnd
      by_cases ha : a.key = k
      · simp only [removeKey, if_pos ha]
        exact findEntry_eq_none_of_not_mem (ha ▸ hnd.1)
      · simp only [removeKey, if_neg ha, findEntry, if_neg ha]
        exact ih hnd.2

theorem nodup_removeKey {k : K} {l : List (entry K V C)}
    (hnd : (l.map entry.key).Nodup) :
    ((removeKey k l).map entry.key).Nodup :=
  List.Nodup.sublist (List.Sublist.map entry.key (removeKey_sublist k l)) hnd

/-! ### Structural lemmas about the cache operations -/

theorem removeElement_noReenter (c : Cache K V C) (e : entry K V C) :
    removeElement noReenter c e =
      { c with entries := removeKey e.key c.entries, log := c.log ++ fireLog e } := by
  cases h : e.onEvicted <;> simp [removeElement, noReenter, fireLog, h]

theorem add_found {c : Cache K V C} {k : K} {item : entry K V C}
    (interp : C → K → V → Cache K V C → Cache K V C) (v : V) (d : Int)
    (cb : Option C) (now : Int)
    (hn : c.cacheNil = false) (hf : findEntry k c.entries = some item) :
    add interp k v d cb now c =
      some { c with
        entries := { item with value := v, Expiration := expOf d now }
          :: removeKey k c.entries } := by
  simp [add, hn, hf]

theorem add_fresh_overflow_deadlock {c : Cache K V C} {k : K}
    (interp : C → K → V → Cache K V C → Cache K V C) (v : V) (d : Int)
    (cb : Option C) (now : Int)
    (hn : c.cacheNil = false) (hf : findEntry k c.entries = none)
    (hm : c.maxEntries ≠ 0) (hgt : ((c.entries.length : Int) + 1) > c.maxEntries) :
    add interp k v d cb now c = none := by
  simp only [add, hn, Bool.false_eq_true, if_false, hf]
  rw [if_pos]
  constructor
  · exact hm
  · simpa using hgt

theorem add_fresh_noEvict {c : Cache K V C} {k : K}
    (interp : C → K → V → Cache K V C → Cache K V C) (v : V) (d : Int)
    (cb : Option C) (now : Int)
    (hn : c.cacheNil = false) (hf : findEntry k c.entries = none)
    (hcap : ¬(c.maxEntries ≠ 0 ∧ ((c.entries.length : Int) + 1) > c.maxEntries)) :
    add interp k v d cb now c =
      some { c with entries := ⟨k, v, expOf d now, cb⟩ :: c.entries } := by
  simp only [add, hn, Bool.false_eq_true, if_false, hf]
  rw [if_neg]
  intro h
  apply hcap
  refine ⟨h.1, ?_⟩
  simpa using h.2

theorem add_nilCache {c : Cache K V C}
    (interp : C → K → V → Cache K V C → Cache K V C) (k : K) (v : V) (d : Int)
    (cb : Option C) (now : Int) (hn : c.cacheNil = true)
    (hcap : ¬(c.maxEntries ≠ 0 ∧ (1 : Int) > c.maxEntries)) :
    add interp k v d cb now c =
      some { c with cacheNil := false, entries := [⟨k, v, expOf d now, cb⟩] } := by
  simp only [add, hn, if_true, findEntry]
  rw [if_neg]
  intro h
  apply hcap
  refine ⟨h.1, ?_⟩
  simpa using h.2

/-! ### Claim theorems -/

/-- Claim C1 (code bug): the claimed capacity eviction never completes in
the source.  On an insert of a fresh key into a full cache, `add` pushes
the new entry and then calls `RemoveOldest` while still holding the
non-reentrant write lock, so the call blocks forever: the tail is never
removed via the shared removal routine and the insert never returns.  The
failing input is evaluated here: key 2 is fresh, the capacity-1 cache is
full, and the insert does not complete (`none`). -/
theorem claim1_capacity_overflow_deadlock :
    findEntry 2 ([⟨1, 10, 0, none⟩] : List (entry Nat Nat Nat)) = none ∧
    Len (⟨1, false, [⟨1, 10, 0, none⟩], []⟩ : Cache Nat Nat Nat) = 1 ∧
    add noReenter 2 20 (-1) none 0
        (⟨1, false, [⟨1, 10, 0, none⟩], []⟩ : Cache Nat Nat Nat) = none := by
  decide

/-- Claim C3 (code bug): in the capacity-2 scenario
`Add A; Add B; Get A; Add C`, the first three operations complete as the
claim describes (the non-expired `Get` promotes `A` to the front), but the
final `Add C` enters the capacity-overflow branch and self-deadlocks on
`RemoveOldest`'s second lock acquisition: the program never reaches the
state with `B` evicted and `A`, `C` present. -/
theorem claim3_lru_order_scenario_hangs :
    Add noReenter 10 100 0 (New 2 : Cache Nat Nat Nat)
      = some ⟨2, false, [⟨10, 100, 0, none⟩], []⟩ ∧
    Add noReenter 20 200 0 (⟨2, false, [⟨10, 100, 0, none⟩], []⟩ : Cache Nat Nat Nat)
      = some ⟨2, false, [⟨20, 200, 0, none⟩, ⟨10, 100, 0, none⟩], []⟩ ∧
    Get noReenter 10 0
        (⟨2, false, [⟨20, 200, 0, none⟩, ⟨10, 100, 0, none⟩], []⟩ : Cache Nat Nat Nat)
      = (some 100, ⟨2, false, [⟨10, 100, 0, none⟩, ⟨20, 200, 0, none⟩], []⟩) ∧
    Add noReenter 30 300 0
        (⟨2, false, [⟨10, 100, 0, none⟩, ⟨20, 200, 0, none⟩], []⟩ : Cache Nat Nat Nat)
      = none := by
  decide

/-- Claim C2: for every cache and key under the pure callback
interpretation: an absent key yields the zero value and an unchanged cache;
a present expired entry (its expiration is set and strictly before `now`,
`entry.Expired`) is removed, its callback firing exactly once (the log grows
by exactly `fireLog e`), the key is then absent and `Get` reports
not-found; a present non-expired entry is promoted to the front and its
value returned. -/
theorem claim2_get_semantics (c : Cache K V C) (k : K) (now : Int) :
    (findEntry k c.entries = none → Get noReenter k now c = (none, c)) ∧
    (∀ e : entry K V C, c.cacheNil = false → keysNodup c →
      findEntry k c.entries = some e → e.Expired now = true →
      Get noReenter k now c =
        (none,
          { c with entries := removeKey k c.entries, log := c.log ++ fireLog e }) ∧
      findEntry k (removeKey k c.entries) = none) ∧
    (∀ e : entry K V C, c.cacheNil = false →
      findEntry k c.entries = some e → e.Expired now = false →
      Get noReenter k now c =
        (some e.value, { c with entries := e :: removeKey k c.entries })) := by
  refine ⟨?_, ?_, ?_⟩
  · intro hf
    by_cases hn : c.cacheNil
    · simp [Get, hn]
    · have hn2 : c.cacheNil = false := by simpa using hn
      simp [Get, hn2, hf]
  · intro e hn2 hnd hf hx
    have hkey : e.key = k := findEntry_key hf
    have hnone : findEntry k (removeKey k c.entries) = none :=
      findEntry_removeKey_self hnd
    refine ⟨?_, hnone⟩
    simp [Get, hn2, hf, hx, removeElement_noReenter, hkey, hnone]
  · intro e hn2 hf hx
    simp [Get, hn2, hf, hx]

/-- Witness for C2 at concrete inputs: one cache with a TTL entry carrying a
callback, probed with an absent key, after expiration, and before
expiration. -/
theorem claim2_get_semantics_witness :
    Get noReenter 2 10 (⟨0, false, [⟨1, 5, 3, some 7⟩], []⟩ : Cache Nat Nat Nat)
      = (none, ⟨0, false, [⟨1, 5, 3, some 7⟩], []⟩) ∧
    (Get noReenter 1 10 (⟨0, false, [⟨1, 5, 3, some 7⟩], []⟩ : Cache Nat Nat Nat)
        = (none, ⟨0, false, [], [(7, 1, 5)]⟩) ∧
      findEntry 1 (removeKey 1 [(⟨1, 5, 3, some 7⟩ : entry Nat Nat Nat)]) = none) ∧
    Get noReenter 1 2 (⟨0, false, [⟨1, 5, 3, some 7⟩], []⟩ : Cache Nat Nat Nat)
      = (some 5, ⟨0, false, [⟨1, 5, 3, some 7⟩], []⟩) := by
  refine ⟨?_, ?_, ?_⟩
  · exact (claim2_get_semantics _ 2 10).1 (by decide)
  · exact (claim2_get_semantics
      (⟨0, false, [⟨1, 5, 3, some 7⟩], []⟩ : Cache Nat Nat Nat) 1 10).2.1
      ⟨1, 5, 3, some 7⟩ rfl (by simp [keysNodup]) (by decide) (by decide)
  · exact (claim2_get_semantics _ 1 2).2.2 ⟨1, 5, 3, some 7⟩ rfl (by decide) (by decide)

/-- Claim C9: an insert of an already-present key (any of the three entry
points, i.e. `add` with any TTL and callback argument) always completes —
no capacity eviction occurs — with the size unchanged, no entry removed and
no callback fired (the log is unchanged) even when the size equals the
capacity; only that entry's value, expiration and recency position change
(it moves to the front), and every other entry is untouched. -/
theorem claim9_update_frame (c : Cache K V C) (k : K) (v : V) (d : Int)
    (cb : Option C) (now : Int) (e : entry K V C)
    (hn : c.cacheNil = false) (hf : findEntry k c.entries = some e) :
    add noReenter k v d cb now c
        = some { c with
            entries := ⟨k, v, expOf d now, e.onEvicted⟩ :: removeKey k c.entries } ∧
    Len { c with entries := ⟨k, v, expOf d now, e.onEvicted⟩ :: removeKey k c.entries }
        = Len c ∧
    ({ c with entries := ⟨k, v, expOf d now, e.onEvicted⟩ :: removeKey k c.entries }
        : Cache K V C).log = c.log ∧
    ∀ e2 ∈ c.entries, e2.key ≠ k →
      e2 ∈ ({ c with
        entries := ⟨k, v, expOf d now, e.onEvicted⟩ :: removeKey k c.entries }
          : Cache K V C).entries := by
  have hkey : e.key = k := findEntry_key hf
  have hupd : { e with value := v, Expiration := expOf d now }
      = (⟨k, v, expOf d now, e.onEvicted⟩ : entry K V C) := by
    cases e
    simp only at hkey
    simp [hkey]
  refine ⟨?_, ?_, rfl, ?_⟩
  · rw [add_found noReenter v d cb now hn hf, hupd]
  · have hlen := removeKey_length hf
    simp only [Len, hn, Bool.false_eq_true, if_false, List.length_cons]
    omega
  · intro e2 h2 hne
    exact List.mem_cons_of_mem _ (mem_removeKey_of_ne hne h2)

/-- Witness for C9 at a concrete input: a full cache of capacity 2; updating
key 1 completes without eviction, keeps the size at 2, fires nothing, and
leaves key 2's entry in place. -/
theorem claim9_update_frame_witness :
    add noReenter 1 50 0 none 0
        (⟨2, false, [⟨1, 5, 0, some 7⟩, ⟨2, 6, 0, none⟩], []⟩ : Cache Nat Nat Nat)
      = some ⟨2, false, [⟨1, 50, 0, some 7⟩, ⟨2, 6, 0, none⟩], []⟩ ∧
    Len (⟨2, false, [⟨1, 50, 0, some 7⟩, ⟨2, 6, 0, none⟩], []⟩ : Cache Nat Nat Nat)
      = Len (⟨2, false, [⟨1, 5, 0, some 7⟩, ⟨2, 6, 0, none⟩], []⟩ : Cache Nat Nat Nat) ∧
    (⟨2, false, [⟨1, 50, 0, some 7⟩, ⟨2, 6, 0, none⟩], []⟩ : Cache Nat Nat Nat).log
      = [] ∧
    (⟨2, 6, 0, none⟩ : entry Nat Nat Nat)
      ∈ (⟨2, false, [⟨1, 50, 0, some 7⟩, ⟨2, 6, 0, none⟩], []⟩ : Cache Nat Nat Nat).entries := by
  have h := claim9_update_frame
    (⟨2, false, [⟨1, 5, 0, some 7⟩, ⟨2, 6, 0, none⟩], []⟩ : Cache Nat Nat Nat)
    1 50 0 none 0 ⟨1, 5, 0, some 7⟩ rfl (by decide)
  exact ⟨h.1, h.2.1, h.2.2.1, h.2.2.2 ⟨2, 6, 0, none⟩ (by decide) (by decide)⟩

/-- Claim C5: a key whose entry carries a registered callback keeps that
callback across a plain `Add` or `AddEx` of the same key (both pass no
callback): the update completes (existing keys never hit the eviction
branch), the value and expiration are updated and the entry promoted to
the front, the callback field stays `some cb`, and a later `Remove` of the
key still fires the original callback (with the updated value). -/
theorem claim5_callback_persists (c : Cache K V C) (k : K) (v2 : V)
    (d now : Int) (e : entry K V C) (cb : C)
    (hn : c.cacheNil = false) (hf : findEntry k c.entries = some e)
    (hcb : e.onEvicted = some cb) :
    Add noReenter k v2 now c
        = some { c with entries := ⟨k, v2, 0, some cb⟩ :: removeKey k c.entries } ∧
    AddEx noReenter k v2 d now c
        = some { c with entries := ⟨k, v2, expOf d now, some cb⟩ :: removeKey k c.entries } ∧
    Remove noReenter k { c with entries := ⟨k, v2, 0, some cb⟩ :: removeKey k c.entries }
        = { c with entries := removeKey k c.entries,
                   log := c.log ++ [(cb, k, v2)] } := by
  have hkey : e.key = k := findEntry_key hf
  have hupd : ∀ x : Int, { e with value := v2, Expiration := x }
      = (⟨k, v2, x, some cb⟩ : entry K V C) := by
    intro x
    cases e
    simp only at hkey hcb
    simp [hkey, hcb]
  refine ⟨?_, ?_, ?_⟩
  · show add noReenter k v2 (-1) none now c = _
    rw [add_found noReenter v2 (-1) none now hn hf, hupd]
    norm_num [expOf]
  · show add noReenter k v2 d none now c = _
    rw [add_found noReenter v2 d none now hn hf, hupd]
  · simp [Remove, hn, findEntry, removeElement_noReenter, removeKey, fireLog]

/-- Witness for C5 at a concrete input: key 1 has callback 7; a plain update
to value 50 keeps the callback, as does a TTL update, and removing the key
afterwards logs the invocation of callback 7 with the new value. -/
theorem claim5_callback_persists_witness :
    Add noReenter 1 50 0 (⟨0, false, [⟨1, 5, 3, some 7⟩], []⟩ : Cache Nat Nat Nat)
      = some ⟨0, false, [⟨1, 50, 0, some 7⟩], []⟩ ∧
    AddEx noReenter 1 50 4 0 (⟨0, false, [⟨1, 5, 3, some 7⟩], []⟩ : Cache Nat Nat Nat)
      = some ⟨0, false, [⟨1, 50, 4, some 7⟩], []⟩ ∧
    Remove noReenter 1 (⟨0, false, [⟨1, 50, 0, some 7⟩], []⟩ : Cache Nat Nat Nat)
      = ⟨0, false, [], [(7, 1, 50)]⟩ := by
  have h := claim5_callback_persists
    (⟨0, false, [⟨1, 5, 3, some 7⟩], []⟩ : Cache Nat Nat Nat)
    1 50 4 0 ⟨1, 5, 3, some 7⟩ 7 rfl (by decide) rfl
  exact ⟨h.1, h.2.1, h.2.2⟩

/-- Claim C6: `AddExWithOnEvicted` attaches its callback argument only when
the key did not previously exist: on an existing key it updates value and
expiration (promoting the entry) but the entry keeps its old callback field
(`e.onEvicted`, not `some cb`); on a fresh key (here without capacity
overflow) the new entry carries `some cb`. -/
theorem claim6_callback_attach_only_fresh (c : Cache K V C) (k : K) (v : V)
    (d : Int) (cb : C) (now : Int) (hn : c.cacheNil = false) :
    (∀ e : entry K V C, findEntry k c.entries = some e →
      AddExWithOnEvicted noReenter k v d cb now c
        = some { c with
            entries := ⟨k, v, expOf d now, e.onEvicted⟩ :: removeKey k c.entries }) ∧
    (findEntry k c.entries = none →
      ¬(c.maxEntries ≠ 0 ∧ ((c.entries.length : Int) + 1) > c.maxEntries) →
      AddExWithOnEvicted noReenter k v d cb now c
        = some { c with entries := ⟨k, v, expOf d now, some cb⟩ :: c.entries }) := by
  constructor
  · intro e hf
    have hkey : e.key = k := findEntry_key hf
    have hupd : { e with value := v, Expiration := expOf d now }
        = (⟨k, v, expOf d now, e.onEvicted⟩ : entry K V C) := by
      cases e
      simp only at hkey
      simp [hkey]
    show add noReenter k v d (some cb) now c = _
    rw [add_found noReenter v d (some cb) now hn hf, hupd]
  · intro hf hcap
    show add noReenter k v d (some cb) now c = _
    rw [add_fresh_noEvict noReenter v d (some cb) now hn hf hcap]

/-- Witness for C6 at concrete inputs: updating existing key 1 (whose entry
has no callback) through `AddExWithOnEvicted` does not install callback 7;
inserting fresh key 2 does attach it. -/
theorem claim6_callback_attach_only_fresh_witness :
    AddExWithOnEvicted noReenter 1 9 5 7 0
        (⟨3, false, [⟨1, 5, 0, none⟩], []⟩ : Cache Nat Nat Nat)
      = some ⟨3, false, [⟨1, 9, 5, none⟩], []⟩ ∧
    AddExWithOnEvicted noReenter 2 9 5 7 0
        (⟨3, false, [⟨1, 5, 0, none⟩], []⟩ : Cache Nat Nat Nat)
      = some ⟨3, false, [⟨2, 9, 5, some 7⟩, ⟨1, 5, 0, none⟩], []⟩ := by
  have h := claim6_callback_attach_only_fresh
    (⟨3, false, [⟨1, 5, 0, none⟩], []⟩ : Cache Nat Nat Nat) 1 9 5 7 0 rfl
  have h2 := claim6_callback_attach_only_fresh
    (⟨3, false, [⟨1, 5, 0, none⟩], []⟩ : Cache Nat Nat Nat) 2 9 5 7 0 rfl
  exact ⟨h.1 ⟨1, 5, 0, none⟩ (by decide), h2.2 (by decide) (by decide)⟩

/-- Claim C7: after `Clear` the size is 0, the log is unchanged (no callback
fired), `Get` of any previously present key reports not-found, and every
subsequent operation behaves as on an empty cache: `Remove`, `RemoveOldest`
and `DeleteExpired` are no-ops, and for every spec-valid (non-negative)
capacity an insert completes, re-creating the containers with exactly the
one new entry. -/
theorem claim7_clear_silence (c : Cache K V C) (k : K) (v : V) (d : Int)
    (cb : Option C) (now : Int) (count : Nat) (ks : List K) :
    Len (Clear c) = 0 ∧
    (Clear c).log = c.log ∧
    Get noReenter k now (Clear c) = (none, Clear c) ∧
    Remove noReenter k (Clear c) = Clear c ∧
    RemoveOldest noReenter (Clear c) = Clear c ∧
    DeleteExpired noReenter now count ks (Clear c) = (Clear c, 0) ∧
    (0 ≤ c.maxEntries →
      add noReenter k v d cb now (Clear c)
        = some { c with cacheNil := false,
                        entries := [⟨k, v, expOf d now, cb⟩] }) := by
  refine ⟨?_, rfl, ?_, ?_, ?_, ?_, ?_⟩
  · simp [Len, Clear]
  · simp [Get, Clear]
  · simp [Remove, Clear]
  · simp [RemoveOldest, Clear]
  · simp [DeleteExpired, Len, Clear]
  · intro h0
    rw [add_nilCache noReenter k v d cb now (by simp [Clear])
      (by rintro ⟨hm, hgt⟩; simp [Clear] at hm hgt; omega)]
    rfl

/-- Witness for C7 at a concrete input: a one-entry cache with a nonempty
log; after `Clear`, all operations behave as on an empty cache and the log
is untouched. -/
theorem claim7_clear_silence_witness :
    Len (Clear (⟨2, false, [⟨1, 5, 0, some 7⟩], [(9, 8, 8)]⟩ : Cache Nat Nat Nat)) = 0 ∧
    (Clear (⟨2, false, [⟨1, 5, 0, some 7⟩], [(9, 8, 8)]⟩ : Cache Nat Nat Nat)).log
      = [(9, 8, 8)] ∧
    Get noReenter 1 0 (Clear (⟨2, false, [⟨1, 5, 0, some 7⟩], [(9, 8, 8)]⟩ : Cache Nat Nat Nat))
      = (none, Clear (⟨2, false, [⟨1, 5, 0, some 7⟩], [(9, 8, 8)]⟩ : Cache Nat Nat Nat)) ∧
    Remove noReenter 1 (Clear (⟨2, false, [⟨1, 5, 0, some 7⟩], [(9, 8, 8)]⟩ : Cache Nat Nat Nat))
      = Clear (⟨2, false, [⟨1, 5, 0, some 7⟩], [(9, 8, 8)]⟩ : Cache Nat Nat Nat) ∧
    RemoveOldest noReenter (Clear (⟨2, false, [⟨1, 5, 0, some 7⟩], [(9, 8, 8)]⟩ : Cache Nat Nat Nat))
      = Clear (⟨2, false, [⟨1, 5, 0, some 7⟩], [(9, 8, 8)]⟩ : Cache Nat Nat Nat) ∧
    DeleteExpired noReenter 0 1 [1]
        (Clear (⟨2, false, [⟨1, 5, 0, some 7⟩], [(9, 8, 8)]⟩ : Cache Nat Nat Nat))
      = (Clear (⟨2, false, [⟨1, 5, 0, some 7⟩], [(9, 8, 8)]⟩ : Cache Nat Nat Nat), 0) ∧
    add noReenter 1 2 3 none 0
        (Clear (⟨2, false, [⟨1, 5, 0, some 7⟩], [(9, 8, 8)]⟩ : Cache Nat Nat Nat))
      = some ⟨2, false, [⟨1, 2, 3, none⟩], [(9, 8, 8)]⟩ := by
  have h := claim7_clear_silence
    (⟨2, false, [⟨1, 5, 0, some 7⟩], [(9, 8, 8)]⟩ : Cache Nat Nat Nat)
    1 2 3 none 0 1 [1]
  exact ⟨h.1, h.2.1, h.2.2.1, h.2.2.2.1, h.2.2.2.2.1, h.2.2.2.2.2.1,
    h.2.2.2.2.2.2 (by decide)⟩

/-- Claim C8: on lazy expiration inside `Get` (a present entry whose
`Expired` test holds), the cache after removal is exactly
`removeElement interp c e`, and `Get` performs a second lookup of the key
in it: when the removal's callback reinserted the key, `Get` returns the
reinserted value as found; when it did not, `Get` returns the zero value.
This holds for an arbitrary callback interpretation `interp`. -/
theorem claim8_expire_double_check
    (interp : C → K → V → Cache K V C → Cache K V C) (c : Cache K V C)
    (k : K) (now : Int) (e : entry K V C) (hn : c.cacheNil = false)
    (hf : findEntry k c.entries = some e) (hx : e.Expired now = true) :
    (∀ e2 : entry K V C,
      findEntry k (removeElement interp c e).entries = some e2 →
      Get interp k now c = (some e2.value, removeElement interp c e)) ∧
    (findEntry k (removeElement interp c e).entries = none →
      Get interp k now c = (none, removeElement interp c e)) := by
  constructor
  · intro e2 h2
    simp [Get, hn, hf, hx, h2]
  · intro h2
    simp [Get, hn, hf, hx, h2]

/-- Witness for C8 at a concrete input: with the reinserting interpretation
the expired `Get` returns the value 999 put back by the callback; with the
pure interpretation it returns the zero value. -/
theorem claim8_expire_double_check_witness :
    Get reinsert 1 10 (⟨0, false, [⟨1, 5, 3, some 7⟩], []⟩ : Cache Nat Nat Nat)
      = (some 999,
          removeElement reinsert (⟨0, false, [⟨1, 5, 3, some 7⟩], []⟩ : Cache Nat Nat Nat)
            ⟨1, 5, 3, some 7⟩) ∧
    Get noReenter 1 10 (⟨0, false, [⟨1, 5, 3, some 7⟩], []⟩ : Cache Nat Nat Nat)
      = (none,
          removeElement noReenter (⟨0, false, [⟨1, 5, 3, some 7⟩], []⟩ : Cache Nat Nat Nat)
            ⟨1, 5, 3, some 7⟩) := by
  constructor
  · exact (claim8_expire_double_check reinsert
      (⟨0, false, [⟨1, 5, 3, some 7⟩], []⟩ : Cache Nat Nat Nat) 1 10
      ⟨1, 5, 3, some 7⟩ rfl (by decide) (by decide)).1
      ⟨1, 999, 0, none⟩ (by decide)
  · exact (claim8_expire_double_check noReenter
      (⟨0, false, [⟨1, 5, 3, some 7⟩], []⟩ : Cache Nat Nat Nat) 1 10
      ⟨1, 5, 3, some 7⟩ rfl (by decide) (by decide)).2 (by decide)

/-- Counterexample for C10 as stated: one `AddExWithOnEvicted` into an
empty cache of capacity `-1` does not complete at all — it self-deadlocks
in the eviction branch — so no state with size 0 and a fired callback is
ever reached. -/
theorem claim10_negative_capacity_counterexample :
    ¬ ∃ c2 : Cache Nat Nat Nat,
      AddExWithOnEvicted noReenter 1 2 5 7 0 (New (-1) : Cache Nat Nat Nat)
          = some c2 ∧
      Len c2 = 0 ∧ c2.log = [(7, 1, 2)] := by
  rintro ⟨c2, hc, -⟩
  have hnone : AddExWithOnEvicted noReenter 1 2 5 7 0 (New (-1) : Cache Nat Nat Nat)
      = none := by decide
  rw [hnone] at hc
  exact Option.noConfusion hc

/-- Claim C10 as amended: the capacity guard tests only `MaxEntries != 0`,
so with a negative capacity every insert of a fresh key enters the
eviction branch — where the source calls `RemoveOldest` while `add` still
holds the non-reentrant write lock and blocks forever.  The insert never
completes (`none`): nothing is evicted, no callback fires and the call
never returns; in particular one `AddExWithOnEvicted` into an empty cache
of capacity `-1` never returns. -/
theorem claim10_negative_capacity_amended :
    (∀ (interp : C → K → V → Cache K V C → Cache K V C) (c : Cache K V C)
        (k : K) (v : V) (d : Int) (cb : Option C) (now : Int),
      c.cacheNil = false → findEntry k c.entries = none → c.maxEntries < 0 →
      add interp k v d cb now c = none) ∧
    (∀ (k : K) (v : V) (d : Int) (cb : C) (now : Int),
      AddExWithOnEvicted noReenter k v d cb now (New (-1) : Cache K V C)
        = none) := by
  constructor
  · intro interp c k v d cb now hn hf hneg
    refine add_fresh_overflow_deadlock interp v d cb now hn hf (by omega) ?_
    have := Int.ofNat_nonneg c.entries.length
    omega
  · intro k v d cb now
    show add noReenter k v d (some cb) now (New (-1) : Cache K V C) = none
    exact add_fresh_overflow_deadlock noReenter v d (some cb) now rfl rfl
      (by norm_num [New]) (by norm_num [New])

/-- Witness for the amended C10 at concrete inputs: a fresh insert into a
cache of capacity `-2` holding one entry never completes, nor does the
one-insert scenario on capacity `-1`. -/
theorem claim10_negative_capacity_amended_witness :
    add noReenter 1 2 0 none 0
        (⟨-2, false, [⟨3, 4, 0, none⟩], []⟩ : Cache Nat Nat Nat) = none ∧
    AddExWithOnEvicted noReenter 1 2 5 7 0 (New (-1) : Cache Nat Nat Nat)
      = none := by
  refine ⟨?_, ?_⟩
  · exact claim10_negative_capacity_amended.1 noReenter _ 1 2 0 none 0 rfl
      (by decide) (by decide)
  · exact claim10_negative_capacity_amended.2 1 2 5 7 0

theorem deleteExpiredLoop_examined_le
    (interp : C → K → V → Cache K V C → Cache K V C) (now : Int) :
    ∀ (count : Nat) (ks : List K) (c : Cache K V C),
      (deleteExpiredLoop interp now count ks c).2 ≤ count := by
  intro count
  induction count with
  | zero => intro ks c; simp [deleteExpiredLoop]
  | succ n ih =>
      intro ks c
      cases ks with
      | nil => simp [deleteExpiredLoop]
      | cons k ks =>
          simp only [deleteExpiredLoop]
          exact Nat.succ_le_succ (ih ks _)

theorem deleteExpiredLoop_preserves (now : Int) :
    ∀ (count : Nat) (ks : List K) (c : Cache K V C), keysNodup c →
      ∀ e ∈ c.entries, ¬(0 < e.Expiration ∧ e.Expiration < now) →
        e ∈ (deleteExpiredLoop noReenter now count ks c).1.entries := by
  intro count
  induction count with
  | zero => intro ks c _ e he _; simpa [deleteExpiredLoop] using he
  | succ n ih =>
      intro ks c hnd e he hx
      cases ks with
      | nil => simpa [deleteExpiredLoop] using he
      | cons k ks =>
          simp only [deleteExpiredLoop]
          cases hfk : findEntry k c.entries with
          | none =>
              simp only [hfk]
              exact ih ks c hnd e he hx
          | some kv =>
              simp only [hfk]
              by_cases hexp : 0 < kv.Expiration ∧ kv.Expiration < now
              · rw [if_pos hexp]
                refine ih ks (removeElement noReenter c kv) ?_ e ?_ hx
                · show ((removeElement noReenter c kv).entries.map entry.key).Nodup
                  rw [removeElement_noReenter]
                  exact nodup_removeKey hnd
                · rw [removeElement_noReenter]
                  refine mem_removeKey_of_ne ?_ he
                  intro hkeq
                  have heq : e = kv := key_nodup_inj hnd he (findEntry_mem hfk) hkeq
                  rw [heq] at hx
                  exact hx hexp
              · rw [if_neg hexp]
                exact ih ks c hnd e he hx

/-- Claim C4: one `DeleteExpired` pass with sample size `count` (which the
source draws as `rand.Intn(Len) + 1`, so `1 ≤ count ≤ Len`) examines at most
`Len` entries (the instrumented second component), and — whatever the
iteration order `ks` — removes only entries whose expiration is set
(positive) and strictly before `now`: every non-expired or never-expiring
entry is still present afterwards. -/
theorem claim4_sweep_bounded (c : Cache K V C) (now : Int) (count : Nat)
    (ks : List K) (hnd : keysNodup c) (h1 : 1 ≤ count) (h2 : count ≤ Len c) :
    (DeleteExpired noReenter now count ks c).2 ≤ Len c ∧
    ∀ e ∈ c.entries, ¬(0 < e.Expiration ∧ e.Expiration < now) →
      e ∈ (DeleteExpired noReenter now count ks c).1.entries := by
  have hlen : ¬(Len c = 0) := by omega
  constructor
  · simp only [DeleteExpired, if_neg hlen]
    exact le_trans (deleteExpiredLoop_examined_le noReenter now count ks c) h2
  · intro e he hx
    simp only [DeleteExpired, if_neg hlen]
    exact deleteExpiredLoop_preserves now count ks c hnd e he hx

/-- Witness for C4 at a concrete input: a cache with one expired and one
never-expiring entry; a full-size sweep examines at most 2 entries and
keeps the never-expiring one. -/
theorem claim4_sweep_bounded_witness :
    (DeleteExpired noReenter 10 2 [1, 2]
        (⟨0, false, [⟨1, 5, 3, some 7⟩, ⟨2, 6, 0, none⟩], []⟩ : Cache Nat Nat Nat)).2
      ≤ Len (⟨0, false, [⟨1, 5, 3, some 7⟩, ⟨2, 6, 0, none⟩], []⟩ : Cache Nat Nat Nat) ∧
    (⟨2, 6, 0, none⟩ : entry Nat Nat Nat) ∈ (DeleteExpired noReenter 10 2 [1, 2]
        (⟨0, false, [⟨1, 5, 3, some 7⟩, ⟨2, 6, 0, none⟩], []⟩ : Cache Nat Nat Nat)).1.entries := by
  have h := claim4_sweep_bounded
    (⟨0, false, [⟨1, 5, 3, some 7⟩, ⟨2, 6, 0, none⟩], []⟩ : Cache Nat Nat Nat)
    10 2 [1, 2] (by simp [keysNodup]) (by decide) (by decide)
  exact ⟨h.1, h.2 ⟨2, 6, 0, none⟩ (by decide) (by decide)⟩

end LruCache
